import Mathlib

/- Verification development for the MTFM training script (train.py).

   Modelling conventions for the shallow embedding:
   - machine floats appearing in threshold and counting logic are modelled as
     exact rationals;
   - floats produced by transcendental functions (exp, log, sin, cos, sqrt)
     are modelled as reals;
   - a possibly-NaN float is modelled as an Option, with none standing for
     NaN; arithmetic propagates none, matching IEEE NaN propagation. -/

/-- A possibly-NaN float modelled over the rationals: none stands for NaN. -/
abbrev Qf : Type := Option ℚ

/-- Addition on possibly-NaN rational floats; NaN propagates. -/
def Qf.add : Qf → Qf → Qf
  | some a, some b => some (a + b)
  | _, _ => none

/-- Multiplication on possibly-NaN rational floats; NaN propagates. -/
def Qf.mul : Qf → Qf → Qf
  | some a, some b => some (a * b)
  | _, _ => none

/-- Division on possibly-NaN rational floats; NaN propagates. A zero
denominator yields none: at every call site in this file the numerator is
zero whenever the denominator is, and numpy evaluates 0/0 to NaN (with a
RuntimeWarning, not an exception). -/
def Qf.div : Qf → Qf → Qf
  | some a, some b => if b = 0 then none else some (a / b)
  | _, _ => none

/-- Binarization used by every split of train.py (lines 230-231, 265-266,
269-270, 310-311, 314-315): the numpy expression (x >= 0.5) + 0, which maps
a value to 1 exactly when it is at least one half, else to 0. -/
def binarize (x : ℚ) : ℚ := if 1/2 ≤ x then 1 else 0

/-- One appended results row: both the model output column and the label
column are binarized before being stored (np.c_ of the two binarized
columns). -/
def binRow (p : ℚ × ℚ) : ℚ × ℚ := (binarize p.1, binarize p.2)

/-- Results table accumulated by the training loop (lines 230-232): raw
(output, label) pairs binarized once at batch time. -/
def trainResults (raw : List (ℚ × ℚ)) : List (ℚ × ℚ) := raw.map binRow

/-- Results table used by the dev metric stage (lines 265-270): rows are
binarized at batch time and the stored columns are binarized a second time
before counting. -/
def devResults (raw : List (ℚ × ℚ)) : List (ℚ × ℚ) := (raw.map binRow).map binRow

/-- Results table used by the test metric stage (lines 310-315): same double
binarization as the dev stage. -/
def testResults (raw : List (ℚ × ℚ)) : List (ℚ × ℚ) := (raw.map binRow).map binRow

/-- True positives (lines 239, 271, 316): rows whose label column is 1 and
whose prediction column is 1. In each row the first component is the
prediction and the second the label. -/
def tpOf (rs : List (ℚ × ℚ)) : ℕ := rs.countP (fun r => decide (r.2 = 1 ∧ r.1 = 1))

/-- True negatives (lines 240, 272, 317): label 0 and prediction 0. -/
def tnOf (rs : List (ℚ × ℚ)) : ℕ := rs.countP (fun r => decide (r.2 = 0 ∧ r.1 = 0))

/-- False positives (lines 241, 273, 318): label 0 and prediction 1. -/
def fpOf (rs : List (ℚ × ℚ)) : ℕ := rs.countP (fun r => decide (r.2 = 0 ∧ r.1 = 1))

/-- False negatives (lines 242, 274, 319): label 1 and prediction 0. -/
def fnOf (rs : List (ℚ × ℚ)) : ℕ := rs.countP (fun r => decide (r.2 = 1 ∧ r.1 = 0))

/-- Precision tp/(tp+fp) (lines 243, 276, 321), with numpy division
semantics on a zero denominator. -/
def precisionOf (tp fp : ℕ) : Qf := Qf.div (some (tp : ℚ)) (some ((tp : ℚ) + (fp : ℚ)))

/-- Recall tp/(tp+fn) (lines 244, 277, 322). -/
def recallOf (tp fn : ℕ) : Qf := Qf.div (some (tp : ℚ)) (some ((tp : ℚ) + (fn : ℚ)))

/-- F1 = 2 * (precision * recall) / (precision + recall) (lines 245, 278,
325), computed from the possibly-NaN precision and recall values. -/
def f1Of (p r : Qf) : Qf := Qf.div (Qf.mul (some 2) (Qf.mul p r)) (Qf.add p r)

/-- State of the model selector (lines 207-208): running best F1, the
accuracy recorded with it, the best epoch (initialized to -1), and the
epoch whose parameters were last written to the checkpoint file (none while
no torch.save has happened). -/
structure SelState where
  max_f1 : ℚ
  max_f1_acc : ℚ
  best_epoch : ℤ
  checkpoint : Option ℕ

/-- Initial selector state (lines 207-208): max_f1 = 0, max_f1_acc = 0,
best_epoch = -1, no checkpoint written yet. -/
def selInit : SelState := ⟨0, 0, -1, none⟩

/-- One checkpoint check (lines 288-292): if max_f1 <= f1 then the running
best is replaced by this epoch and the current parameters are saved,
otherwise the state is unchanged. -/
def selStep (st : SelState) (step : ℕ) (f1 acc : ℚ) : SelState :=
  if st.max_f1 ≤ f1 then ⟨f1, acc, (step : ℤ), some step⟩ else st

/-- The training loop driving one checkpoint check per epoch, epochs indexed
from i. Each list entry is the (dev F1, dev accuracy) pair of one epoch. -/
def runSel : ℕ → SelState → List (ℚ × ℚ) → SelState
  | _, st, [] => st
  | i, st, p :: rest => runSel (i + 1) (selStep st i p.1 p.2) rest

/-- The whole run (lines 207-292): epoch indices start at 0 from the initial
selector state. -/
def runSelector (epochs : List (ℚ × ℚ)) : SelState := runSel 0 selInit epochs

/-- SigDataset.__getitem__ (lines 95-100) yields the pair
(input[idx], label[idx]); a DataLoader batch of it is therefore a
two-element sequence. -/
def sigGetItem (input label : ℚ) : List ℚ := [input, label]

/-- Line 306 of the test loop: the statement
input, feature, label = [tmp.to(args.device) for tmp in batch_data]
unpacks the batch sequence into three names, which succeeds only on a
three-element sequence and raises ValueError otherwise (modelled as none). -/
def unpack3 : List ℚ → Option (ℚ × ℚ × ℚ)
  | [a, b, c] => some (a, b, c)
  | _ => none

/-- A possibly-NaN float modelled over the reals: none stands for NaN. -/
abbrev Rf : Type := Option ℝ

/-- Addition on possibly-NaN real floats; NaN propagates (so adding the
positional encoding to a NaN feature entry yields NaN). -/
def Rf.add : Rf → Rf → Rf
  | some a, some b => some (a + b)
  | _, _ => none

/-- Subtraction on possibly-NaN real floats; NaN propagates. -/
def Rf.sub : Rf → Rf → Rf
  | some a, some b => some (a - b)
  | _, _ => none

/-- Division on possibly-NaN real floats; NaN propagates. A zero denominator
yields none; in the normalization below the denominator std + 1e-5 is
strictly positive whenever it is a real number, so this branch is never
taken there. -/
noncomputable def Rf.div : Rf → Rf → Rf
  | some a, some b => if b = 0 then none else some (a / b)
  | _, _ => none

/-- Line 166 of Model.forward: x[torch.isnan(x)] = 0 replaces every NaN
entry by 0 and leaves real entries unchanged. -/
def zeroNaN : Rf → Rf
  | none => some 0
  | some a => some a

/-- Lines 165-166 of Model.forward, for one entry of the input window:
first the positional encoding entry is added (line 165), then NaN entries
are zeroed (line 166). This is the value that enters the towers. -/
def forwardPre (x pe : Rf) : Rf := zeroNaN (Rf.add x pe)

/-- Per-channel normalization statistics stored on the shared args object
(args.train_mean, args.train_std, lines 76-77). -/
structure NormStats (C : ℕ) where
  mean : Fin C → Rf
  std : Fin C → Rf

/-- An (N, T, C) float array: example index, timestep index, channel
index. -/
def Data (N T C : ℕ) : Type := Fin N → Fin T → Fin C → Rf

/-- All (example, timestep) entries of channel c, the slice
input[:, :, i] of lines 79 and 87. -/
def channelList {N T C : ℕ} (x : Data N T C) (c : Fin C) : List Rf :=
  (List.finRange N).flatMap (fun n => (List.finRange T).map (fun t => x n t c))

/-- np.nanmean (line 80): the mean of the non-NaN entries; NaN when every
entry is NaN. -/
noncomputable def nanmean (l : List Rf) : Rf :=
  if (l.filterMap id).length = 0 then none
  else some ((l.filterMap id).sum / ((l.filterMap id).length : ℝ))

/-- np.nanstd (line 81): the square root of the mean squared deviation of
the non-NaN entries from their mean; NaN when every entry is NaN. -/
noncomputable def nanstd (l : List Rf) : Rf :=
  match nanmean l with
  | none => none
  | some m =>
      some (Real.sqrt ((((l.filterMap id).map (fun v => (v - m) ^ 2)).sum)
        / ((l.filterMap id).length : ℝ)))

/-- Lines 76-83: the per-channel statistics fitted on an array, channel by
channel. -/
noncomputable def fitStats {N T C : ℕ} (x : Data N T C) : NormStats C :=
  ⟨fun c => nanmean (channelList x c), fun c => nanstd (channelList x c)⟩

/-- Lines 84 and 90: every entry of channel c is replaced by
(x - train_mean[c]) / (train_std[c] + 1e-5). -/
noncomputable def applyStats {N T C : ℕ} (x : Data N T C) (s : NormStats C) : Data N T C :=
  fun n t c => Rf.div (Rf.sub (x n t c) (s.mean c)) (Rf.add (s.std c) (some (1 / 100000)))

/-- SigDataset.__init__ (lines 66-90) with the stats slot of the shared
args object threaded explicitly. With training=True the statistics are
fitted on this array, stored, and used to normalize it. With
training=False the stored statistics are read: when none were ever stored
the attribute access args.train_mean raises AttributeError (modelled as
none), otherwise the array is normalized with the stored statistics, which
are left unchanged. -/
noncomputable def sigDatasetInit {N T C : ℕ} (x : Data N T C) (training : Bool)
    (cfg : Option (NormStats C)) : Option (Data N T C × Option (NormStats C)) :=
  if training then
    some (applyStats x (fitStats x), some (fitStats x))
  else
    match cfg with
    | none => none
    | some s => some (applyStats x s, some s)

/-- Lines 113-115: the three datasets are constructed in order, training
first, dev and test with training=False. -/
noncomputable def pipelineDatasets {N1 N2 N3 T C : ℕ} (train : Data N1 T C)
    (dev : Data N2 T C) (test : Data N3 T C) :
    Option (Data N1 T C × Data N2 T C × Data N3 T C × Option (NormStats C)) :=
  match sigDatasetInit train true none with
  | none => none
  | some (trainN, cfg1) =>
      match sigDatasetInit dev false cfg1 with
      | none => none
      | some (devN, cfg2) =>
          match sigDatasetInit test false cfg2 with
          | none => none
          | some (testN, cfg3) => some (trainN, devN, testN, cfg3)

/-- Length of torch.arange(0, d_model, 2) (line 188): the number of even
dimensions, ceil(D / 2). -/
def divTermLen (D : ℕ) : ℕ := (D + 1) / 2

/-- Entry k of div_term (line 188):
exp((2 k) * (-log(10000) / d_model)). -/
noncomputable def div_term (D k : ℕ) : ℝ :=
  Real.exp ((2 * k : ℝ) * (-Real.log 10000 / (D : ℝ)))

/-- Width of the cosine slice assignment: when d_model is odd the last
div_term entry is dropped (lines 192-193) so that the right-hand side
matches the number of odd dimensions. -/
def cosTermLen (D : ℕ) : ℕ := if D % 2 = 1 then divTermLen D - 1 else divTermLen D

/-- One entry of the positional encoding table built by
create_positional_encoding (lines 184-196): the table starts as
torch.zeros, even dimension 2k of position pos receives
sin(pos * div_term[k]) (line 190), odd dimension 2k+1 receives
cos(pos * div_term[k]) with the truncated frequency vector (line 194). -/
noncomputable def posencEntry (D pos d : ℕ) : ℝ :=
  if d % 2 = 0 then
    if d / 2 < divTermLen D then Real.sin ((pos : ℝ) * div_term D (d / 2)) else 0
  else
    if d / 2 < cosTermLen D then Real.cos ((pos : ℝ) * div_term D (d / 2)) else 0

/-- The (T, D) table returned by create_positional_encoding(seq_len,
d_model): a pure function of (T, D), so two calls with the same arguments
are identical by definition. -/
noncomputable def create_positional_encoding (T D : ℕ) : Fin T → Fin D → ℝ :=
  fun t d => posencEntry D (t : ℕ) (d : ℕ)

/-- Modelled from the spec: lines 175-177 of train.py do not parse (the
argument list of torch.cat is left open on line 175 and an assignment
statement appears inside it on line 177), so the attention fusion is
modelled from the spec wording of section 4.4. Concatenation along the
feature axis of the three 32-wide tower outputs at one timestep into a
96-wide vector. -/
noncomputable def concat3 (o1 o2 o3 : Fin 30 → Fin 32 → ℝ) (t : Fin 30) (j : Fin 96) : ℝ :=
  if h1 : (j : ℕ) < 32 then o1 t ⟨j, h1⟩
  else if h2 : (j : ℕ) < 64 then o2 t ⟨(j : ℕ) - 32, by omega⟩
  else o3 t ⟨(j : ℕ) - 64, by omega⟩

/-- Modelled from the spec: the single linear attention layer mapping one
96-wide timestep vector to one scalar logit (weights w, bias b). -/
noncomputable def attnLogit (w : Fin 96 → ℝ) (b : ℝ) (v : Fin 30 → Fin 96 → ℝ)
    (t : Fin 30) : ℝ :=
  (∑ j, w j * v t j) + b

/-- Modelled from the spec: softmax of the per-timestep logits across the
time axis (torch.softmax with dim=1). -/
noncomputable def attnWeight (logit : Fin 30 → ℝ) (t : Fin 30) : ℝ :=
  Real.exp (logit t) / ∑ u, Real.exp (logit u)

/-- Modelled from the spec: the attention-weighted sum over time of the
96-wide vectors, one 96-wide vector per example. -/
noncomputable def attnFuse (logit : Fin 30 → ℝ) (v : Fin 30 → Fin 96 → ℝ)
    (j : Fin 96) : ℝ :=
  ∑ t, attnWeight logit t * v t j

lemma binarize_cases (x : ℚ) : binarize x = 0 ∨ binarize x = 1 := by
  unfold binarize
  rcases le_or_lt (1/2 : ℚ) x with h | h
  · right
    rw [if_pos h]
  · left
    rw [if_neg (not_le.mpr h)]

lemma binarize_idem (x : ℚ) : binarize (binarize x) = binarize x := by
  unfold binarize
  rcases le_or_lt (1/2 : ℚ) x with h | h
  · rw [if_pos h]
    norm_num
  · rw [if_neg (not_le.mpr h)]
    norm_num

lemma binRow_idem (p : ℚ × ℚ) : binRow (binRow p) = binRow p := by
  unfold binRow
  simp [binarize_idem]

lemma map_binRow_idem (raw : List (ℚ × ℚ)) :
    (raw.map binRow).map binRow = raw.map binRow := by
  induction raw with
  | nil => rfl
  | cons p l ih => simp only [List.map_cons, binRow_idem, ih]

lemma tpOf_cons (r : ℚ × ℚ) (rs : List (ℚ × ℚ)) :
    tpOf (r :: rs) = tpOf rs + if r.2 = 1 ∧ r.1 = 1 then 1 else 0 := by
  unfold tpOf
  rw [List.countP_cons]
  congr 1
  simp

lemma tnOf_cons (r : ℚ × ℚ) (rs : List (ℚ × ℚ)) :
    tnOf (r :: rs) = tnOf rs + if r.2 = 0 ∧ r.1 = 0 then 1 else 0 := by
  unfold tnOf
  rw [List.countP_cons]
  congr 1
  simp

lemma fpOf_cons (r : ℚ × ℚ) (rs : List (ℚ × ℚ)) :
    fpOf (r :: rs) = fpOf rs + if r.2 = 0 ∧ r.1 = 1 then 1 else 0 := by
  unfold fpOf
  rw [List.countP_cons]
  congr 1
  simp

lemma fnOf_cons (r : ℚ × ℚ) (rs : List (ℚ × ℚ)) :
    fnOf (r :: rs) = fnOf rs + if r.2 = 1 ∧ r.1 = 0 then 1 else 0 := by
  unfold fnOf
  rw [List.countP_cons]
  congr 1
  simp

lemma counts_partition (rs : List (ℚ × ℚ))
    (h : ∀ r ∈ rs, (r.1 = 0 ∨ r.1 = 1) ∧ (r.2 = 0 ∨ r.2 = 1)) :
    tpOf rs + tnOf rs + fpOf rs + fnOf rs = rs.length := by
  induction rs with
  | nil => rfl
  | cons r rs ih =>
      have hr := h r (List.mem_cons_self r rs)
      have hrs : ∀ q ∈ rs, (q.1 = 0 ∨ q.1 = 1) ∧ (q.2 = 0 ∨ q.2 = 1) :=
        fun q hq => h q (List.mem_cons_of_mem r hq)
      have hind := ih hrs
      rw [tpOf_cons, tnOf_cons, fpOf_cons, fnOf_cons, List.length_cons]
      rcases r with ⟨a, b⟩
      rcases hr.1 with h1 | h1 <;> rcases hr.2 with h2 | h2 <;> subst h1 <;> subst h2 <;>
        norm_num <;> omega

lemma mem_map_binRow (raw : List (ℚ × ℚ)) :
    ∀ r ∈ raw.map binRow, (r.1 = 0 ∨ r.1 = 1) ∧ (r.2 = 0 ∨ r.2 = 1) := by
  intro r hr
  rcases List.mem_map.mp hr with ⟨p, _, hp⟩
  subst hp
  exact ⟨binarize_cases p.1, binarize_cases p.2⟩

/-- Claim C1: the test loop (lines 305-312) is supposed to run a forward
pass per test batch and compute metrics from the model outputs on test
inputs, but its very first statement unpacks each two-element batch into
three names, which raises ValueError; no model forward is invoked in that
loop at all (the loss on line 308 reads a stale out variable). This theorem
evaluates the unpacking at the failing input: every batch produced from
SigDataset items fails the three-way unpack. -/
theorem C1_test_loop_unpack :
    ∀ input label : ℚ, unpack3 (sigGetItem input label) = none :=
  fun _ _ => rfl

/-- Claim C2 counterexample: with a NaN raw feature entry and positional
encoding entry 1, the value entering the towers is 0, not the positional
encoding value - so the positional signal is forced to 0, contradicting the
claim that it survives. -/
theorem C2_counterexample :
    forwardPre none (some 1) = some 0 ∧ forwardPre none (some 1) ≠ some 1 := by
  refine ⟨rfl, ?_⟩
  rw [show forwardPre none (some 1) = some 0 from rfl]
  intro hcontra
  exact zero_ne_one (Option.some.inj hcontra)

/-- Claim C2 (amended): NaN entries are zeroed only after the positional
encoding has been added (line 166 runs after line 165), but since NaN plus
anything is NaN, every position whose raw feature value is NaN enters the
towers as 0: the positional signal does not survive there. -/
theorem C2_nan_zeroed_after_add :
    (∀ pe : Rf, forwardPre none pe = some 0)
  ∧ (∀ x pe : Rf, forwardPre x pe = zeroNaN (Rf.add x pe)) := by
  constructor
  · intro pe
    cases pe <;> rfl
  · intro x pe
    rfl

/-- Claim C7: evaluation of the metric code at the failing input
tp = 0, fp = 1, fn = 1 (zero predicted-positives among present
actual-positives): precision and recall both evaluate to 0, and
F1 = 2*(0*0)/(0+0) is a 0/0 division, which numpy evaluates to NaN - there
is no guard mapping it to 0. -/
theorem C7_f1_zero_division :
    precisionOf 0 1 = some 0 ∧ recallOf 0 1 = some 0
  ∧ f1Of (precisionOf 0 1) (recallOf 0 1) = none := by
  have hp : precisionOf 0 1 = some 0 := by
    simp [precisionOf, Qf.div]
  have hr : recallOf 0 1 = some 0 := by
    simp [recallOf, Qf.div]
  refine ⟨hp, hr, ?_⟩
  rw [hp, hr]
  simp [f1Of, Qf.div, Qf.mul, Qf.add]

/-- Claim C9: the binarization shared by the training, dev and test loops
maps a value to 1 exactly when it is at least 0.5 (so a prediction of
exactly 0.5 counts as predicted-positive), maps it to 0 exactly when it is
below 0.5, is idempotent (the dev and test stages re-binarize the stored
columns with the same rule), and is applied to both the prediction and the
label column of every appended row in all three splits. -/
theorem C9_threshold_rule :
    (∀ x : ℚ, binarize x = 1 ↔ 1/2 ≤ x)
  ∧ (∀ x : ℚ, binarize x = 0 ↔ x < 1/2)
  ∧ binarize (1/2) = 1
  ∧ (∀ x : ℚ, binarize (binarize x) = binarize x)
  ∧ (∀ out lab : ℚ, binRow (out, lab) = (binarize out, binarize lab))
  ∧ (∀ raw : List (ℚ × ℚ),
      trainResults raw = raw.map binRow
      ∧ devResults raw = (raw.map binRow).map binRow
      ∧ testResults raw = (raw.map binRow).map binRow) := by
  refine ⟨?_, ?_, ?_, binarize_idem, ?_, ?_⟩
  · intro x
    unfold binarize
    rcases le_or_lt (1/2 : ℚ) x with h | h
    · rw [if_pos h]
      exact ⟨fun _ => h, fun _ => rfl⟩
    · rw [if_neg (not_le.mpr h)]
      constructor
      · intro h01
        exact absurd h01 (by norm_num)
      · intro hle
        exact absurd hle (not_le.mpr h)
  · intro x
    unfold binarize
    rcases le_or_lt (1/2 : ℚ) x with h | h
    · rw [if_pos h]
      constructor
      · intro h10
        exact absurd h10 one_ne_zero
      · intro hlt
        exact absurd h (not_le.mpr hlt)
    · rw [if_neg (not_le.mpr h)]
      exact ⟨fun _ => h, fun _ => rfl⟩
  · norm_num [binarize]
  · intro out lab
    rfl
  · intro raw
    exact ⟨rfl, rfl, rfl⟩

/-- Claim C6: for every split the four confusion counts partition the
results table: tp + tn + fp + fn equals the number of examples, both for
the training-stage table (binarized once) and for the dev and test stage
tables (binarized again before counting). -/
theorem C6_confusion_partition :
    ∀ raw : List (ℚ × ℚ),
      (tpOf (trainResults raw) + tnOf (trainResults raw) + fpOf (trainResults raw)
          + fnOf (trainResults raw) = raw.length)
    ∧ (tpOf (devResults raw) + tnOf (devResults raw) + fpOf (devResults raw)
          + fnOf (devResults raw) = raw.length)
    ∧ (tpOf (testResults raw) + tnOf (testResults raw) + fpOf (testResults raw)
          + fnOf (testResults raw) = raw.length) := by
  intro raw
  have hbase : tpOf (raw.map binRow) + tnOf (raw.map binRow) + fpOf (raw.map binRow)
      + fnOf (raw.map binRow) = raw.length := by
    have hcp := counts_partition (raw.map binRow) (mem_map_binRow raw)
    simpa using hcp
  refine ⟨hbase, ?_, ?_⟩
  · simp only [devResults, map_binRow_idem]
    exact hbase
  · simp only [testResults, map_binRow_idem]
    exact hbase

lemma filterMap_id_none (l : List Rf) : (none :: l).filterMap id = l.filterMap id := by
  simp

lemma nanmean_ignores_nan (l : List Rf) : nanmean (none :: l) = nanmean l := by
  unfold nanmean
  rw [filterMap_id_none]

lemma nanstd_ignores_nan (l : List Rf) : nanstd (none :: l) = nanstd l := by
  unfold nanstd
  rw [nanmean_ignores_nan, filterMap_id_none]

/-- Claim C4: the pipeline of lines 113-115 fits per-channel statistics
exactly once, on the training split; dev and test are normalized with
exactly those statistics and simply read the stored statistics back
unchanged (they never fit their own); every entry is normalized as
(x - mean[c]) / (std[c] + 1e-5); and the channel statistics ignore NaN
entries. -/
theorem C4_normalization_stats :
    (∀ (N1 N2 N3 T C : ℕ) (train : Data N1 T C) (dev : Data N2 T C) (test : Data N3 T C),
        pipelineDatasets train dev test
          = some (applyStats train (fitStats train), applyStats dev (fitStats train),
              applyStats test (fitStats train), some (fitStats train)))
  ∧ (∀ (N T C : ℕ) (x : Data N T C) (s : NormStats C) (n : Fin N) (t : Fin T) (c : Fin C),
        applyStats x s n t c
          = Rf.div (Rf.sub (x n t c) (s.mean c)) (Rf.add (s.std c) (some (1 / 100000))))
  ∧ (∀ l : List Rf, nanmean (none :: l) = nanmean l)
  ∧ (∀ l : List Rf, nanstd (none :: l) = nanstd l)
  ∧ (∀ (N T C : ℕ) (x : Data N T C) (s : NormStats C),
        sigDatasetInit x false (some s) = some (applyStats x s, some s)) := by
  refine ⟨?_, ?_, nanmean_ignores_nan, nanstd_ignores_nan, ?_⟩
  · intro N1 N2 N3 T C train dev test
    rfl
  · intro N T C x s n t c
    rfl
  · intro N T C x s
    rfl

/-- Claim C10: constructing a SigDataset with training=False before any
training dataset exists fails (args.train_mean was never stored), and after
one or more training constructions a non-training dataset is normalized
with exactly the statistics of the most recently constructed training
dataset. -/
theorem C10_stats_threading :
    (∀ (N T C : ℕ) (x : Data N T C), sigDatasetInit x false none = none)
  ∧ (∀ (N1 N4 N2 T C : ℕ) (t1 : Data N1 T C) (t2 : Data N4 T C) (d : Data N2 T C)
        (c0 : Option (NormStats C)),
      sigDatasetInit d false
          ((sigDatasetInit t2 true ((sigDatasetInit t1 true c0).bind Prod.snd)).bind Prod.snd)
        = some (applyStats d (fitStats t2), some (fitStats t2))) := by
  constructor
  · intro N T C x
    rfl
  · intro N1 N4 N2 T C t1 t2 d c0
    rfl

lemma div_term_eq (D k : ℕ) :
    div_term D k = (10000 : ℝ) ^ (-((2 * k : ℝ) / (D : ℝ))) := by
  unfold div_term
  rw [Real.rpow_def_of_pos (by norm_num : (0:ℝ) < 10000), Real.exp_eq_exp]
  ring

/-- Claim C8: in the table built by create_positional_encoding, even
dimension 2i of position pos holds sin(pos / 10000^(2i/D)) and odd
dimension 2i+1 holds cos of the same angular argument; when D is odd the
cosine frequency vector is the original one with its last entry dropped, so
the trailing cosine slot (column D-2) uses the second-to-last frequency
div_term[len-2] rather than indexing past the end. Determinism of the table
is inherent to the embedding: create_positional_encoding is a pure function
of (T, D), with no random input. -/
theorem C8_positional_encoding :
    (∀ D pos i : ℕ, 2 * i < D →
        posencEntry D pos (2 * i)
          = Real.sin ((pos : ℝ) / (10000 : ℝ) ^ ((2 * i : ℝ) / (D : ℝ))))
  ∧ (∀ D pos i : ℕ, 2 * i + 1 < D →
        posencEntry D pos (2 * i + 1)
          = Real.cos ((pos : ℝ) / (10000 : ℝ) ^ ((2 * i : ℝ) / (D : ℝ))))
  ∧ (∀ D : ℕ, D % 2 = 1 → cosTermLen D = divTermLen D - 1)
  ∧ (∀ D pos : ℕ, D % 2 = 1 → 3 ≤ D →
        posencEntry D pos (D - 2) = Real.cos ((pos : ℝ) * div_term D (divTermLen D - 2)))
  ∧ (∀ (T D : ℕ) (t : Fin T) (d : Fin D),
        create_positional_encoding T D t d = posencEntry D (t : ℕ) (d : ℕ)) := by
  refine ⟨?_, ?_, ?_, ?_, ?_⟩
  · intro D pos i h
    have hmod : (2 * i) % 2 = 0 := by omega
    have hdiv : (2 * i) / 2 = i := by omega
    have hlt : i < divTermLen D := by
      unfold divTermLen
      omega
    unfold posencEntry
    rw [hmod, hdiv, if_pos rfl, if_pos hlt, div_term_eq,
      Real.rpow_neg (by norm_num : (0:ℝ) ≤ 10000), ← div_eq_mul_inv]
  · intro D pos i h
    have hmod : (2 * i + 1) % 2 = 1 := by omega
    have hdiv : (2 * i + 1) / 2 = i := by omega
    have hlt : i < cosTermLen D := by
      unfold cosTermLen divTermLen
      split <;> omega
    unfold posencEntry
    rw [hmod, if_neg (by norm_num : ¬(1:ℕ) = 0), hdiv, if_pos hlt, div_term_eq,
      Real.rpow_neg (by norm_num : (0:ℝ) ≤ 10000), ← div_eq_mul_inv]
  · intro D hD
    unfold cosTermLen
    rw [if_pos hD]
  · intro D pos hD h3
    have hmod : (D - 2) % 2 = 1 := by omega
    have hdiv : (D - 2) / 2 = divTermLen D - 2 := by
      unfold divTermLen
      omega
    have hlt : divTermLen D - 2 < cosTermLen D := by
      unfold cosTermLen divTermLen
      split <;> omega
    unfold posencEntry
    rw [hmod, if_neg (by norm_num : ¬(1:ℕ) = 0), hdiv, if_pos hlt]
  · intro T D t d
    rfl

/-- Claim C8 witness: the theorem evaluated at the concrete table shape of
the script, D = 11 (the raw feature width) with position 2 and frequency
index 1, plus the odd-D truncation facts at D = 11. -/
theorem C8_positional_encoding_witness :
    (2 * 1 < 11
      ∧ posencEntry 11 2 (2 * 1)
          = Real.sin (((2:ℕ) : ℝ) / (10000 : ℝ) ^ ((2 * ((1:ℕ) : ℝ)) / ((11:ℕ) : ℝ))))
  ∧ (2 * 1 + 1 < 11
      ∧ posencEntry 11 2 (2 * 1 + 1)
          = Real.cos (((2:ℕ) : ℝ) / (10000 : ℝ) ^ ((2 * ((1:ℕ) : ℝ)) / ((11:ℕ) : ℝ))))
  ∧ ((11:ℕ) % 2 = 1 ∧ cosTermLen 11 = divTermLen 11 - 1)
  ∧ ((11:ℕ) % 2 = 1 ∧ 3 ≤ 11
      ∧ posencEntry 11 2 (11 - 2) = Real.cos (((2:ℕ) : ℝ) * div_term 11 (divTermLen 11 - 2))) :=
  ⟨⟨by norm_num, C8_positional_encoding.1 11 2 1 (by norm_num)⟩,
   ⟨by norm_num, C8_positional_encoding.2.1 11 2 1 (by norm_num)⟩,
   ⟨by norm_num, C8_positional_encoding.2.2.1 11 (by norm_num)⟩,
   ⟨by norm_num, by norm_num, C8_positional_encoding.2.2.2.1 11 2 (by norm_num) (by norm_num)⟩⟩

/-- Claim C3: properties of the attention fusion modelled from the spec
(the source lines 175-177 do not parse, see the claim record). The softmax
across the time axis gives every example a probability distribution over
its 30 timesteps: the weights sum to 1; the fused output is the
attention-weighted sum over time of the 96-wide concatenated vectors; and
the concatenation places tower one at feature positions 0-31, tower two at
32-63 and tower three at 64-95. -/
theorem C3_attention_fusion :
    (∀ logit : Fin 30 → ℝ, ∑ t, attnWeight logit t = 1)
  ∧ (∀ (logit : Fin 30 → ℝ) (v : Fin 30 → Fin 96 → ℝ) (j : Fin 96),
        attnFuse logit v j = ∑ t, attnWeight logit t * v t j)
  ∧ (∀ (o1 o2 o3 : Fin 30 → Fin 32 → ℝ) (t : Fin 30) (j : Fin 32),
        concat3 o1 o2 o3 t (Fin.castLE (by norm_num) j) = o1 t j
      ∧ concat3 o1 o2 o3 t ⟨32 + (j : ℕ),
          Nat.lt_of_lt_of_le (Nat.add_lt_add_left j.isLt 32) (by norm_num)⟩ = o2 t j
      ∧ concat3 o1 o2 o3 t ⟨64 + (j : ℕ), Nat.add_lt_add_left j.isLt 64⟩ = o3 t j) := by
  refine ⟨?_, ?_, ?_⟩
  · intro logit
    unfold attnWeight
    rw [← Finset.sum_div]
    exact div_self (ne_of_gt (Finset.sum_pos (fun u _ => Real.exp_pos (logit u))
      Finset.univ_nonempty))
  · intro logit v j
    rfl
  · intro o1 o2 o3 t j
    rcases j with ⟨jv, hj⟩
    refine ⟨?_, ?_, ?_⟩
    · simp only [concat3, Fin.castLE_mk]
      rw [dif_pos hj]
    · simp only [concat3]
      rw [dif_neg (by omega : ¬32 + jv < 32), dif_pos (by omega : 32 + jv < 64)]
      congr 1
      exact Fin.ext (show 32 + jv - 32 = jv by omega)
    · simp only [concat3]
      rw [dif_neg (by omega : ¬64 + jv < 32), dif_neg (by omega : ¬64 + jv < 64)]
      congr 1
      exact Fin.ext (show 64 + jv - 64 = jv by omega)

lemma runSel_spec (l : List (ℚ × ℚ)) : ∀ (i : ℕ) (st : SelState),
    (runSel i st l = st ∧ ∀ p ∈ l, p.1 < st.max_f1)
  ∨ (∃ k, ∃ hk : k < l.length,
      (runSel i st l).best_epoch = ((i + k : ℕ) : ℤ)
      ∧ (runSel i st l).checkpoint = some (i + k)
      ∧ (runSel i st l).max_f1 = (l.get ⟨k, hk⟩).1
      ∧ (runSel i st l).max_f1_acc = (l.get ⟨k, hk⟩).2
      ∧ st.max_f1 ≤ (runSel i st l).max_f1
      ∧ (∀ j (hj : j < l.length), (l.get ⟨j, hj⟩).1 ≤ (runSel i st l).max_f1)
      ∧ (∀ j (hj : j < l.length), k < j → (l.get ⟨j, hj⟩).1 < (runSel i st l).max_f1)) := by
  induction l with
  | nil =>
      intro i st
      exact Or.inl ⟨rfl, by simp⟩
  | cons p rest ih =>
      intro i st
      by_cases h : st.max_f1 ≤ p.1
      · have hsel : selStep st i p.1 p.2 = (⟨p.1, p.2, (i : ℤ), some i⟩ : SelState) := by
          unfold selStep
          rw [if_pos h]
        have hstep : runSel i st (p :: rest)
            = runSel (i + 1) (⟨p.1, p.2, (i : ℤ), some i⟩ : SelState) rest := by
          rw [show runSel i st (p :: rest) = runSel (i + 1) (selStep st i p.1 p.2) rest
            from rfl, hsel]
        rcases ih (i + 1) ⟨p.1, p.2, (i : ℤ), some i⟩ with ⟨heq, hlt⟩ | hR
        · refine Or.inr ⟨0, by simp, ?_, ?_, ?_, ?_, ?_, ?_, ?_⟩
          · rw [hstep, heq]
            simp
          · rw [hstep, heq]
            simp
          · rw [hstep, heq]
            simp
          · rw [hstep, heq]
            simp
          · rw [hstep, heq]
            exact h
          · intro j hj
            rw [hstep, heq]
            cases j with
            | zero => simp
            | succ j2 =>
                have hj2 : j2 < rest.length := by simpa using hj
                have hmem : rest.get ⟨j2, hj2⟩ ∈ rest := List.get_mem rest j2 hj2
                simpa using le_of_lt (hlt _ hmem)
          · intro j hj hgt
            rw [hstep, heq]
            cases j with
            | zero => exact absurd hgt (by omega)
            | succ j2 =>
                have hj2 : j2 < rest.length := by simpa using hj
                have hmem : rest.get ⟨j2, hj2⟩ ∈ rest := List.get_mem rest j2 hj2
                simpa using hlt _ hmem
        · rcases hR with ⟨k, hk, hbe, hcp, hmf, hma, hle, hub, hstrict⟩
          have hk1 : k + 1 < (p :: rest).length := by simpa using Nat.succ_lt_succ hk
          refine Or.inr ⟨k + 1, hk1, ?_, ?_, ?_, ?_, ?_, ?_, ?_⟩
          · rw [hstep, hbe]
            congr 1
            omega
          · rw [hstep, hcp]
            congr 1
            omega
          · rw [hstep, hmf]
            simp
          · rw [hstep, hma]
            simp
          · rw [hstep]
            exact le_trans h hle
          · intro j hj
            rw [hstep]
            cases j with
            | zero => simpa using hle
            | succ j2 =>
                have hj2 : j2 < rest.length := by simpa using hj
                simpa using hub j2 hj2
          · intro j hj hgt
            rw [hstep]
            cases j with
            | zero => exact absurd hgt (by omega)
            | succ j2 =>
                have hj2 : j2 < rest.length := by simpa using hj
                simpa using hstrict j2 hj2 (by omega)
      · have hsel : selStep st i p.1 p.2 = st := by
          unfold selStep
          rw [if_neg h]
        have hstep : runSel i st (p :: rest) = runSel (i + 1) st rest := by
          rw [show runSel i st (p :: rest) = runSel (i + 1) (selStep st i p.1 p.2) rest
            from rfl, hsel]
        rcases ih (i + 1) st with ⟨heq, hlt⟩ | hR
        · refine Or.inl ⟨?_, ?_⟩
          · rw [hstep, heq]
          · intro q hq
            rcases List.mem_cons.mp hq with hq1 | hq2
            · rw [hq1]
              exact not_le.mp h
            · exact hlt q hq2
        · rcases hR with ⟨k, hk, hbe, hcp, hmf, hma, hle, hub, hstrict⟩
          have hk1 : k + 1 < (p :: rest).length := by simpa using Nat.succ_lt_succ hk
          refine Or.inr ⟨k + 1, hk1, ?_, ?_, ?_, ?_, ?_, ?_, ?_⟩
          · rw [hstep, hbe]
            congr 1
            omega
          · rw [hstep, hcp]
            congr 1
            omega
          · rw [hstep, hmf]
            simp
          · rw [hstep, hma]
            simp
          · rw [hstep]
            exact hle
          · intro j hj
            rw [hstep]
            cases j with
            | zero => simpa using le_of_lt (lt_of_lt_of_le (not_le.mp h) hle)
            | succ j2 =>
                have hj2 : j2 < rest.length := by simpa using hj
                simpa using hub j2 hj2
          · intro j hj hgt
            rw [hstep]
            cases j with
            | zero => exact absurd hgt (by omega)
            | succ j2 =>
                have hj2 : j2 < rest.length := by simpa using hj
                simpa using hstrict j2 hj2 (by omega)

/-- Claim C5: a checkpoint is written after an epoch exactly when its dev F1
is greater than or equal to the best F1 so far (a tie replaces the earlier
best, so ties favor the later epoch); and at run end the reported triple is
the maximum dev F1 over all epochs together with the accuracy of the last
epoch attaining it, the reported best epoch is that epoch, and the
persisted checkpoint holds the parameters saved at exactly that epoch. The
hypotheses state that dev F1 values are genuine numbers (nonnegative, as
every defined F1 is) and that at least one epoch ran. -/
theorem C5_model_selector (epochs : List (ℚ × ℚ)) (hne : epochs ≠ [])
    (h0 : ∀ p ∈ epochs, 0 ≤ p.1) :
    (∀ (st : SelState) (e : ℕ) (f1 acc : ℚ),
        selStep st e f1 acc = ⟨f1, acc, (e : ℤ), some e⟩ ↔ st.max_f1 ≤ f1)
  ∧ ∃ k, ∃ hk : k < epochs.length,
      (runSelector epochs).best_epoch = (k : ℤ)
      ∧ (runSelector epochs).checkpoint = some k
      ∧ (runSelector epochs).max_f1 = (epochs.get ⟨k, hk⟩).1
      ∧ (runSelector epochs).max_f1_acc = (epochs.get ⟨k, hk⟩).2
      ∧ (∀ j (hj : j < epochs.length), (epochs.get ⟨j, hj⟩).1 ≤ (runSelector epochs).max_f1)
      ∧ (∀ j (hj : j < epochs.length), k < j →
            (epochs.get ⟨j, hj⟩).1 < (runSelector epochs).max_f1) := by
  constructor
  · intro st e f1 acc
    constructor
    · intro heq
      by_contra hc
      unfold selStep at heq
      rw [if_neg hc] at heq
      have hmx : st.max_f1 = f1 := by rw [heq]
      exact hc (le_of_eq hmx)
    · intro hle
      unfold selStep
      rw [if_pos hle]
  · rcases runSel_spec epochs 0 selInit with ⟨_, hlt⟩ | hR
    · rcases List.exists_mem_of_ne_nil epochs hne with ⟨p, hp⟩
      have h1 := hlt p hp
      have h2 := h0 p hp
      have h3 : selInit.max_f1 = 0 := rfl
      rw [h3] at h1
      exact absurd h2 (not_le.mpr h1)
    · rcases hR with ⟨k, hk, hbe, hcp, hmf, hma, _, hub, hstrict⟩
      refine ⟨k, hk, ?_, ?_, hmf, hma, hub, hstrict⟩
      · rw [show runSelector epochs = runSel 0 selInit epochs from rfl, hbe]
        simp
      · rw [show runSelector epochs = runSel 0 selInit epochs from rfl, hcp]
        simp

/-- Claim C5 witness: two epochs with tied dev F1 values, discharging the
hypotheses of the selector theorem at a concrete epoch list. -/
theorem C5_model_selector_witness :
    (([((1:ℚ)/2, (1:ℚ)/4), ((1:ℚ)/2, (3:ℚ)/4)] : List (ℚ × ℚ)) ≠ [])
  ∧ (∀ p ∈ ([((1:ℚ)/2, (1:ℚ)/4), ((1:ℚ)/2, (3:ℚ)/4)] : List (ℚ × ℚ)), 0 ≤ p.1)
  ∧ ((∀ (st : SelState) (e : ℕ) (f1 acc : ℚ),
        selStep st e f1 acc = ⟨f1, acc, (e : ℤ), some e⟩ ↔ st.max_f1 ≤ f1)
    ∧ ∃ k, ∃ hk : k < ([((1:ℚ)/2, (1:ℚ)/4), ((1:ℚ)/2, (3:ℚ)/4)] : List (ℚ × ℚ)).length,
        (runSelector [((1:ℚ)/2, (1:ℚ)/4), ((1:ℚ)/2, (3:ℚ)/4)]).best_epoch = (k : ℤ)
        ∧ (runSelector [((1:ℚ)/2, (1:ℚ)/4), ((1:ℚ)/2, (3:ℚ)/4)]).checkpoint = some k
        ∧ (runSelector [((1:ℚ)/2, (1:ℚ)/4), ((1:ℚ)/2, (3:ℚ)/4)]).max_f1
            = (([((1:ℚ)/2, (1:ℚ)/4), ((1:ℚ)/2, (3:ℚ)/4)] : List (ℚ × ℚ)).get ⟨k, hk⟩).1
        ∧ (runSelector [((1:ℚ)/2, (1:ℚ)/4), ((1:ℚ)/2, (3:ℚ)/4)]).max_f1_acc
            = (([((1:ℚ)/2, (1:ℚ)/4), ((1:ℚ)/2, (3:ℚ)/4)] : List (ℚ × ℚ)).get ⟨k, hk⟩).2
        ∧ (∀ j (hj : j < ([((1:ℚ)/2, (1:ℚ)/4), ((1:ℚ)/2, (3:ℚ)/4)] : List (ℚ × ℚ)).length),
              (([((1:ℚ)/2, (1:ℚ)/4), ((1:ℚ)/2, (3:ℚ)/4)] : List (ℚ × ℚ)).get ⟨j, hj⟩).1
                ≤ (runSelector [((1:ℚ)/2, (1:ℚ)/4), ((1:ℚ)/2, (3:ℚ)/4)]).max_f1)
        ∧ (∀ j (hj : j < ([((1:ℚ)/2, (1:ℚ)/4), ((1:ℚ)/2, (3:ℚ)/4)] : List (ℚ × ℚ)).length),
              k < j →
              (([((1:ℚ)/2, (1:ℚ)/4), ((1:ℚ)/2, (3:ℚ)/4)] : List (ℚ × ℚ)).get ⟨j, hj⟩).1
                < (runSelector [((1:ℚ)/2, (1:ℚ)/4), ((1:ℚ)/2, (3:ℚ)/4)]).max_f1)) :=
  ⟨by simp, by norm_num [List.forall_mem_cons],
   C5_model_selector [((1:ℚ)/2, (1:ℚ)/4), ((1:ℚ)/2, (3:ℚ)/4)] (by simp)
     (by norm_num [List.forall_mem_cons])⟩
